import Mathlib

/-
Verification of the news-bias-analysis repository.

Shallow embedding of the core of the repository:
  * `src/app/api/bias/route.ts` — tokenizer, Naive Bayes trainer, predictor,
    softmax, CSV parser, model cache (`getModel`);
  * the summarize route (`src/unnamed/part_000`) — extractive summarizer.

Counts are embedded as `Nat`, scores as `ℝ` (the source uses IEEE doubles;
we verify the exact-real semantics of the same expressions).  JavaScript
`Map`/`Set` insertion-order semantics are modelled with association lists /
insertion-ordered lists.
-/

set_option maxRecDepth 10000

namespace NewsBias

/-- The three bias labels, in the fixed order used by `route.ts`
(`labels = ["neutral", "slightly-biased", "highly-biased"]`). -/
inductive Label where
  | neutral
  | slightlyBiased
  | highlyBiased
deriving DecidableEq, Repr

/-- The fixed label order of `route.ts`. -/
def labelOrder : List Label := [.neutral, .slightlyBiased, .highlyBiased]

instance : Fintype Label :=
  ⟨⟨{.neutral, .slightlyBiased, .highlyBiased}, by decide⟩, by intro x; cases x <;> decide⟩

/-- ASCII lower-casing of one character (JS `toLowerCase` restricted to ASCII;
the classifier only keeps `[a-z]+` runs afterwards, so this is faithful for
the token stream). -/
def jsToLower (c : Char) : Char :=
  if 'A' ≤ c ∧ c ≤ 'Z' then Char.ofNat (c.toNat + 32) else c

/-- Maximal runs of characters satisfying `p`, in order — the semantics of a
global regex match of `[cls]+` over the character list. -/
def splitRuns (p : Char → Bool) (l : List Char) : List (List Char) :=
  let step : Char → (List Char × List (List Char)) → (List Char × List (List Char)) :=
    fun c acc =>
      if p c then (c :: acc.1, acc.2)
      else ([], if acc.1 = [] then acc.2 else acc.1 :: acc.2)
  let r := l.foldr step ([], [])
  if r.1 = [] then r.2 else r.1 :: r.2

/-- The classifier stopword list of `tokenize` in `route.ts` (the source
builds a JS `Set` from this array; `"into"` appears twice there, which is
harmless for membership). -/
def stopWords : List String :=
  ["the", "and", "for", "that", "with", "this", "from", "have", "has", "had",
   "are", "was", "were", "but", "not", "you", "your", "our", "their", "they",
   "his", "her", "its", "who", "what", "when", "where", "why", "how", "can",
   "will", "would", "could", "should", "said", "says", "say", "into", "over",
   "under", "than", "then", "also", "more", "most", "some", "any", "all",
   "because", "been", "after", "before", "about", "against", "between",
   "during", "without", "within", "while", "into", "onto", "off", "per",
   "via", "as", "by", "at", "on", "in", "to", "of", "a", "an", "it"]

/-- `tokenize` of `route.ts`: lowercase, keep `[a-z]+` runs, drop tokens
shorter than 3 characters and stopwords. -/
def tokenize (text : String) : List String :=
  let lowered := text.toList.map jsToLower
  ((splitRuns (fun c => 'a' ≤ c && c ≤ 'z') lowered).map fun r => String.mk r).filter
    (fun t => 3 ≤ t.length && !(stopWords.contains t))

/-- `Array.from(new Set(list))` in JS: deduplication keeping the first
occurrence of each element, in order. -/
def jsDedup (l : List String) : List String :=
  l.foldl (fun acc t => if t ∈ acc then acc else acc ++ [t]) []

/-- One labeled training row. -/
structure DatasetRow where
  text : String
  label : Label

/-- The trained model of `route.ts` (`BiasModel`).  `vocab` is the insertion-
ordered JS `Set`; the two `Map`-valued fields are total functions defaulting
to 0 (`map.get(t) || 0`). -/
structure BiasModel where
  vocab : List String
  docCount : Label → Nat
  tokenCounts : Label → String → Nat
  totalTokens : Label → Nat
  trainedOn : Nat

/-- The all-zero accumulator `trainNaiveBayes` starts from. -/
def emptyModel : BiasModel :=
  { vocab := [], docCount := fun _ => 0, tokenCounts := fun _ _ => 0,
    totalTokens := fun _ => 0, trainedOn := 0 }

/-- Body of the inner token loop of `trainNaiveBayes`:
`vocab.add(t); tokenCounts[label].set(t, get+1); totalTokens[label]++`. -/
def addTokenToModel (lab : Label) (m : BiasModel) (t : String) : BiasModel :=
  { m with
    vocab := if t ∈ m.vocab then m.vocab else m.vocab ++ [t]
    tokenCounts := fun l' t' =>
      if l' = lab ∧ t' = t then m.tokenCounts l' t' + 1 else m.tokenCounts l' t'
    totalTokens := fun l' => if l' = lab then m.totalTokens l' + 1 else m.totalTokens l' }

/-- Body of the row loop of `trainNaiveBayes`: deduplicate the row's tokens
(binary NB), bump `docCount[label]`, then fold the token loop. -/
def trainRowStep (m : BiasModel) (r : DatasetRow) : BiasModel :=
  let toks := jsDedup (tokenize r.text)
  let m1 := { m with
    docCount := fun l' => if l' = r.label then m.docCount l' + 1 else m.docCount l' }
  toks.foldl (addTokenToModel r.label) m1

/-- `trainNaiveBayes` of `route.ts`. -/
def trainNaiveBayes (rows : List DatasetRow) : BiasModel :=
  let m := rows.foldl trainRowStep emptyModel
  { m with trainedOn := rows.length }

/-! ### CSV parser (`parseCSV` in `route.ts`) -/

/-- The character-indexed while-loop of `parseCSV`, as a recursion over the
remaining characters.  State: in-quotes flag, accumulated `field`, current
`row`, completed `rows`.  Inside quotes, a doubled `""` appends one `"` and
consumes two characters; a single `"` closes the field. -/
def parseCSVAux : Bool → List Char → List String → List (List String) →
    List Char → List (List String)
  | _, field, row, rows, [] => rows ++ [row ++ [String.mk field]]
  | true, field, row, rows, '"' :: '"' :: rest2 =>
    parseCSVAux true (field ++ ['"']) row rows rest2
  | true, field, row, rows, '"' :: rest => parseCSVAux false field row rows rest
  | true, field, row, rows, c :: rest => parseCSVAux true (field ++ [c]) row rows rest
  | false, field, row, rows, c :: rest =>
    if c = '"' then parseCSVAux true field row rows rest
    else if c = ',' then parseCSVAux false [] (row ++ [String.mk field]) rows rest
    else if c = '\n' then
      parseCSVAux false [] [] (rows ++ [row ++ [String.mk field]]) rest
    else if c = '\r' then parseCSVAux false field row rows rest
    else parseCSVAux false (field ++ [c]) row rows rest

/-- `parseCSV` of `route.ts`: run the loop, then drop a trailing `[""]` row
(the artifact of a final newline). -/
def parseCSV (text : String) : List (List String) :=
  let rows := parseCSVAux false [] [] [] text.toList
  match rows.getLast? with
  | some last => if last = [""] then rows.dropLast else rows
  | none => rows

/-! ### Predictor (`predict`, `softmaxLogScores` in `route.ts`)

The source computes with IEEE doubles; we verify the exact-real semantics of
the same expressions, so the score-level definitions live in `ℝ`. -/

/-- `N = labels.reduce((acc, l) => acc + docCount[l], 0)`. -/
def totalDocs (m : BiasModel) : Nat := (labelOrder.map m.docCount).sum

/-- `V = Math.max(1, vocab.size)`. -/
def vocabV (m : BiasModel) : Nat := max 1 m.vocab.length

noncomputable section
open Classical

/-- The per-label score loop of `predict`: start from the Laplace-smoothed
log prior, then `ll += Math.log((count + 1) / (totalTokens[l] + V))` for each
query token in order. -/
def logScore (m : BiasModel) (toks : List String) (l : Label) : ℝ :=
  toks.foldl
    (fun ll t =>
      ll + Real.log (((m.tokenCounts l t : ℝ) + 1) / ((m.totalTokens l : ℝ) + (vocabV m : ℝ))))
    (Real.log (((m.docCount l : ℝ) + 1) / ((totalDocs m : ℝ) + (labelOrder.length : ℝ))))

/-- The log-score vector `predict` builds before calling the softmax:
the query text is tokenized and deduplicated (`Array.from(new Set(...))`). -/
def predictLogScores (m : BiasModel) (text : String) : Label → ℝ :=
  fun l => logScore m (jsDedup (tokenize text)) l

/-- The two final lines of `softmaxLogScores`:
`sum = exps.reduce((a,b) => a+b, 0); probs = exps.map(v => v / (sum || 1))`.
Note the JS `sum || 1` guard divides by 1 when the sum is zero (it does not
substitute a uniform distribution). -/
def normalizeExps (exps : Label → ℝ) : Label → ℝ :=
  let sum := 0 + exps .neutral + exps .slightlyBiased + exps .highlyBiased
  fun l => exps l / (if sum = 0 then 1 else sum)

/-- `softmaxLogScores` of `route.ts`: subtract the max, exponentiate,
normalize with the `sum || 1` guard. -/
def softmaxLogScores (scores : Label → ℝ) : Label → ℝ :=
  let maxv := max (max (scores .neutral) (scores .slightlyBiased)) (scores .highlyBiased)
  normalizeExps (fun l => Real.exp (scores l - maxv))

/-- The argmax loop of `predict`: `best = labels[0]; bestVal = -Infinity;`
then update on strict `>`.  The first comparison against `-Infinity` always
succeeds, which the `Option` accumulator models. -/
def jsArgmax (score : Label → ℝ) : Label :=
  (labelOrder.foldl
      (fun acc l =>
        match acc with
        | none => some (l, score l)
        | some p => if p.2 < score l then some (l, score l) else some p)
      none).elim Label.neutral Prod.fst

/-- `predict` of `route.ts`: label from the raw log-scores, probabilities
from the softmax of the same raw log-scores. -/
def predict (m : BiasModel) (text : String) : Label × (Label → ℝ) :=
  (jsArgmax (predictLogScores m text), softmaxLogScores (predictLogScores m text))

/-- Stable insertion step for the descending-by-score sort: `x` goes before
the first element it strictly beats, after all elements with score ≥ its
own — exactly the (unique) stable descending order produced by
`Array.prototype.sort((a, b) => b.score - a.score)` in `POST`. -/
def insertByScoreDesc (x : Label × ℝ) : List (Label × ℝ) → List (Label × ℝ)
  | [] => [x]
  | y :: ys => if y.2 < x.2 then x :: y :: ys else y :: insertByScoreDesc x ys

/-- Stable sort by descending score (see `insertByScoreDesc`). -/
def jsSortByScoreDesc (l : List (Label × ℝ)) : List (Label × ℝ) :=
  l.foldr insertByScoreDesc []

/-- The response list built in `POST`:
`model.labels.map(l => ({label: l, score: probs[l]})).sort((a,b) => b.score - a.score)`. -/
def probabilitiesList (m : BiasModel) (text : String) : List (Label × ℝ) :=
  jsSortByScoreDesc (labelOrder.map fun l => (l, (predict m text).2 l))

/-! ### Spec-side definitions (from the spec's words, for the refinement
claims; to be compared with the source-derived definitions above) -/

/-- Modelled from the spec: `logScore[l] = ln((documentCount[l] + 1) /
(N + numLabels)) + Σ_token ln((tokenPresenceCount[l][token] + 1) /
(totalTokenPresence[l] + V))` over every *distinct* query token. -/
def specLogScore (m : BiasModel) (text : String) (l : Label) : ℝ :=
  Real.log (((m.docCount l : ℝ) + 1) / ((totalDocs m : ℝ) + 3)) +
    ∑ t ∈ (tokenize text).toFinset,
      Real.log (((m.tokenCounts l t : ℝ) + 1) / ((m.totalTokens l : ℝ) + (vocabV m : ℝ)))

/-- Modelled from the spec: argmax over labels of the score, ties broken by
first occurrence in the fixed label order `[neutral, slightly-biased,
highly-biased]`. -/
def specArgmax (score : Label → ℝ) : Label :=
  if ∀ l, score l ≤ score Label.neutral then Label.neutral
  else if ∀ l, score l ≤ score Label.slightlyBiased then Label.slightlyBiased
  else Label.highlyBiased

/-- Modelled from the spec: softmax of the scores — subtract the max
log-score from each, exponentiate, normalize by the sum of exponentials. -/
def specSoftmax (score : Label → ℝ) : Label → ℝ :=
  let maxv := max (max (score .neutral) (score .slightlyBiased)) (score .highlyBiased)
  fun l => Real.exp (score l - maxv) / ∑ l' : Label, Real.exp (score l' - maxv)

end

/-! ### Helper lemmas -/

theorem forall_label_iff (P : Label → Prop) :
    (∀ l, P l) ↔ P .neutral ∧ P .slightlyBiased ∧ P .highlyBiased :=
  ⟨fun h => ⟨h _, h _, h _⟩, fun ⟨h1, h2, h3⟩ l => by cases l <;> assumption⟩

theorem foldl_add_eq_sum (f : String → ℝ) :
    ∀ (toks : List String) (init : ℝ),
      toks.foldl (fun a t => a + f t) init = init + (toks.map f).sum := by
  intro toks
  induction toks with
  | nil => simp
  | cons t ts ih => intro init; simp [List.foldl, ih]; ring

theorem mem_jsDedup_foldl (x : String) :
    ∀ (l acc : List String),
      x ∈ l.foldl (fun acc t => if t ∈ acc then acc else acc ++ [t]) acc ↔
        x ∈ acc ∨ x ∈ l := by
  intro l
  induction l with
  | nil => simp
  | cons t ts ih =>
    intro acc
    simp only [List.foldl_cons]
    by_cases h : t ∈ acc
    · rw [if_pos h, ih]
      simp only [List.mem_cons]
      constructor
      · rintro (hx | hx)
        exacts [Or.inl hx, Or.inr (Or.inr hx)]
      · rintro (hx | hx | hx)
        exacts [Or.inl hx, Or.inl (hx ▸ h), Or.inr hx]
    · rw [if_neg h, ih]
      simp only [List.mem_append, List.mem_cons, List.mem_singleton]
      tauto

theorem nodup_jsDedup_foldl :
    ∀ (l acc : List String), acc.Nodup →
      (l.foldl (fun acc t => if t ∈ acc then acc else acc ++ [t]) acc).Nodup := by
  intro l
  induction l with
  | nil => simp
  | cons t ts ih =>
    intro acc hacc
    simp only [List.foldl_cons]
    by_cases h : t ∈ acc
    · simpa [h] using ih acc hacc
    · refine ih _ ?_
      simp only [h, if_false]
      exact List.Nodup.append hacc (List.nodup_singleton t) (by simpa using h)

theorem jsDedup_mem (x : String) (l : List String) : x ∈ jsDedup l ↔ x ∈ l := by
  simpa [jsDedup] using mem_jsDedup_foldl x l []

theorem jsDedup_nodup (l : List String) : (jsDedup l).Nodup :=
  nodup_jsDedup_foldl l [] List.nodup_nil

theorem jsDedup_toFinset (l : List String) : (jsDedup l).toFinset = l.toFinset := by
  ext x; simp [List.mem_toFinset, jsDedup_mem]

theorem labelOrder_length_eq : (labelOrder.length : ℝ) = 3 := by
  simp [labelOrder]

/-- The score loop over the deduplicated query tokens equals the prior plus
the `Finset` sum of the per-token smoothed log-likelihoods over the distinct
query tokens. -/
theorem predictLogScores_eq_spec (m : BiasModel) (text : String) (l : Label) :
    predictLogScores m text l = specLogScore m text l := by
  unfold predictLogScores logScore specLogScore
  rw [foldl_add_eq_sum, labelOrder_length_eq]
  congr 1
  rw [← List.sum_toFinset _ (jsDedup_nodup (tokenize text)),
    jsDedup_toFinset (tokenize text)]

/-- C1: for every model and query text, `predict` computes, for each label,
`logScore[l] = ln((documentCount[l]+1)/(N+numLabels)) + Σ over distinct
query tokens of ln((tokenPresenceCount[l][t]+1)/(totalTokenPresence[l]+V))`
with `N` the total document count and `V = max(1, |vocabulary|)`; query
tokens with zero presence count (in particular tokens absent from the
vocabulary) are not skipped — they contribute the smoothing term
`ln(1/(totalTokenPresence[l]+V))`. -/
theorem claim_C1_log_score_formula (m : BiasModel) (text : String) (l : Label) :
    predictLogScores m text l =
      Real.log (((m.docCount l : ℝ) + 1) / ((totalDocs m : ℝ) + 3)) +
        ∑ t ∈ (tokenize text).toFinset,
          Real.log (((m.tokenCounts l t : ℝ) + 1) /
            ((m.totalTokens l : ℝ) + (vocabV m : ℝ))) ∧
    ∀ t ∈ (tokenize text).toFinset, m.tokenCounts l t = 0 →
      Real.log (((m.tokenCounts l t : ℝ) + 1) /
          ((m.totalTokens l : ℝ) + (vocabV m : ℝ))) =
        Real.log (1 / ((m.totalTokens l : ℝ) + (vocabV m : ℝ))) := by
  refine ⟨predictLogScores_eq_spec m text l, ?_⟩
  intro t _ hzero
  rw [hzero]
  norm_num

/-- Witness for C1: a concrete trained model and a query token that has zero
presence count contributes exactly the smoothing term. -/
theorem claim_C1_log_score_formula_witness :
    ("unknownword" ∈ (tokenize "unknownword please").toFinset ∧
      (trainNaiveBayes [⟨"good solid facts", .neutral⟩]).tokenCounts .neutral "unknownword" = 0) ∧
    Real.log ((((trainNaiveBayes [⟨"good solid facts", .neutral⟩]).tokenCounts .neutral "unknownword" : ℝ) + 1) /
        (((trainNaiveBayes [⟨"good solid facts", .neutral⟩]).totalTokens .neutral : ℝ) +
          (vocabV (trainNaiveBayes [⟨"good solid facts", .neutral⟩]) : ℝ))) =
      Real.log (1 / (((trainNaiveBayes [⟨"good solid facts", .neutral⟩]).totalTokens .neutral : ℝ) +
          (vocabV (trainNaiveBayes [⟨"good solid facts", .neutral⟩]) : ℝ))) :=
  ⟨⟨by decide, by decide⟩,
    (claim_C1_log_score_formula (trainNaiveBayes [⟨"good solid facts", .neutral⟩])
        "unknownword please" .neutral).2 "unknownword" (by decide) (by decide)⟩

/-- C10: `predict` depends on the query text only through the set of
distinct classifier tokens: equal token sets give identical predictions
(label and full probability vector). -/
theorem claim_C10_token_set_determines_prediction (m : BiasModel) (t1 t2 : String)
    (h : (tokenize t1).toFinset = (tokenize t2).toFinset) :
    predict m t1 = predict m t2 := by
  have hscores : predictLogScores m t1 = predictLogScores m t2 := by
    funext l
    rw [predictLogScores_eq_spec, predictLogScores_eq_spec]
    unfold specLogScore
    rw [h]
  unfold predict
  rw [hscores]

/-- Witness for C10: two texts with the same token set (different
multiplicity and order) predict identically. -/
theorem claim_C10_token_set_determines_prediction_witness :
    (tokenize "alpha beta beta gamma").toFinset = (tokenize "gamma beta alpha alpha").toFinset ∧
      predict (trainNaiveBayes [⟨"alpha news story", .neutral⟩]) "alpha beta beta gamma" =
        predict (trainNaiveBayes [⟨"alpha news story", .neutral⟩]) "gamma beta alpha alpha" :=
  ⟨by decide,
    claim_C10_token_set_determines_prediction (trainNaiveBayes [⟨"alpha news story", .neutral⟩])
      "alpha beta beta gamma" "gamma beta alpha alpha" (by decide)⟩

/-! ### Softmax and argmax lemmas -/

noncomputable section
open Classical

/-- `Math.max(...Object.values(scores))` over the three labels. -/
def maxScore (score : Label → ℝ) : ℝ :=
  max (max (score .neutral) (score .slightlyBiased)) (score .highlyBiased)

/-- `exps.reduce((a, b) => a + b, 0)` over the three labels. -/
def expSum (score : Label → ℝ) : ℝ :=
  0 + Real.exp (score .neutral - maxScore score) +
    Real.exp (score .slightlyBiased - maxScore score) +
    Real.exp (score .highlyBiased - maxScore score)

end

theorem maxScore_cases (score : Label → ℝ) :
    maxScore score = score .neutral ∨ maxScore score = score .slightlyBiased ∨
      maxScore score = score .highlyBiased := by
  unfold maxScore
  rcases max_choice (max (score .neutral) (score .slightlyBiased)) (score .highlyBiased)
    with h | h
  · rcases max_choice (score .neutral) (score .slightlyBiased) with h' | h' <;>
      rw [h, h'] <;> tauto
  · rw [h]; tauto

theorem one_le_expSum (score : Label → ℝ) : 1 ≤ expSum score := by
  have h1 := Real.exp_pos (score .neutral - maxScore score)
  have h2 := Real.exp_pos (score .slightlyBiased - maxScore score)
  have h3 := Real.exp_pos (score .highlyBiased - maxScore score)
  rcases maxScore_cases score with h | h | h <;>
    · unfold expSum
      rw [← h]
      simp only [sub_self, Real.exp_zero] at *
      linarith

theorem expSum_pos (score : Label → ℝ) : 0 < expSum score :=
  lt_of_lt_of_le one_pos (one_le_expSum score)

theorem softmaxLogScores_apply (score : Label → ℝ) (l : Label) :
    softmaxLogScores score l = Real.exp (score l - maxScore score) / expSum score := by
  have hS := expSum_pos score
  unfold expSum maxScore at hS
  unfold softmaxLogScores normalizeExps
  simp only []
  rw [if_neg (ne_of_gt hS)]
  rfl

theorem softmax_sum_eq_one (score : Label → ℝ) :
    softmaxLogScores score .neutral + softmaxLogScores score .slightlyBiased +
      softmaxLogScores score .highlyBiased = 1 := by
  simp only [softmaxLogScores_apply]
  have hS := expSum_pos score
  rw [div_add_div_same, div_add_div_same, div_eq_one_iff_eq (ne_of_gt hS)]
  unfold expSum
  ring

theorem softmax_nonneg (score : Label → ℝ) (l : Label) :
    0 ≤ softmaxLogScores score l := by
  rw [softmaxLogScores_apply]
  exact div_nonneg (le_of_lt (Real.exp_pos _)) (le_of_lt (expSum_pos score))

theorem softmax_le_one (score : Label → ℝ) (l : Label) :
    softmaxLogScores score l ≤ 1 := by
  rw [softmaxLogScores_apply]
  rw [div_le_one (expSum_pos score)]
  have h1 := Real.exp_pos (score .neutral - maxScore score)
  have h2 := Real.exp_pos (score .slightlyBiased - maxScore score)
  have h3 := Real.exp_pos (score .highlyBiased - maxScore score)
  unfold expSum
  cases l <;> linarith

theorem sum_label (f : Label → ℝ) :
    ∑ l : Label, f l = f .neutral + f .slightlyBiased + f .highlyBiased := by
  rw [show (Finset.univ : Finset Label) =
    {Label.neutral, Label.slightlyBiased, Label.highlyBiased} from rfl]
  rw [Finset.sum_insert (by decide), Finset.sum_insert (by decide), Finset.sum_singleton]
  ring

/-! ### Argmax lemmas -/

theorem specArgmax_of_neutral (score : Label → ℝ) (h : ∀ l, score l ≤ score .neutral) :
    specArgmax score = .neutral := by
  unfold specArgmax; rw [if_pos h]

theorem specArgmax_of_slight (score : Label → ℝ) (h1 : ¬ ∀ l, score l ≤ score .neutral)
    (h2 : ∀ l, score l ≤ score .slightlyBiased) :
    specArgmax score = .slightlyBiased := by
  unfold specArgmax; rw [if_neg h1, if_pos h2]

theorem specArgmax_of_high (score : Label → ℝ) (h1 : ¬ ∀ l, score l ≤ score .neutral)
    (h2 : ¬ ∀ l, score l ≤ score .slightlyBiased) :
    specArgmax score = .highlyBiased := by
  unfold specArgmax; rw [if_neg h1, if_neg h2]

theorem jsArgmax_eq_specArgmax (score : Label → ℝ) :
    jsArgmax score = specArgmax score := by
  unfold jsArgmax
  dsimp only [labelOrder, List.foldl_cons, List.foldl_nil]
  by_cases hab : score Label.neutral < score Label.slightlyBiased
  · rw [if_pos hab]
    dsimp only
    by_cases hbc : score Label.slightlyBiased < score Label.highlyBiased
    · rw [if_pos hbc]
      dsimp only [Option.elim]
      refine (specArgmax_of_high score ?_ ?_).symm
      · rw [forall_label_iff]; rintro ⟨h1, h2, h3⟩; linarith
      · rw [forall_label_iff]; rintro ⟨h1, h2, h3⟩; linarith
    · rw [if_neg hbc]
      dsimp only [Option.elim]
      refine (specArgmax_of_slight score ?_ ?_).symm
      · rw [forall_label_iff]; rintro ⟨h1, h2, h3⟩; linarith
      · rw [forall_label_iff]
        exact ⟨le_of_lt hab, le_refl _, not_lt.1 hbc⟩
  · rw [if_neg hab]
    dsimp only
    by_cases hac : score Label.neutral < score Label.highlyBiased
    · rw [if_pos hac]
      dsimp only [Option.elim]
      refine (specArgmax_of_high score ?_ ?_).symm
      · rw [forall_label_iff]; rintro ⟨h1, h2, h3⟩; linarith
      · rw [forall_label_iff]; rintro ⟨h1, h2, h3⟩
        have := not_lt.1 hab; linarith
    · rw [if_neg hac]
      dsimp only [Option.elim]
      refine (specArgmax_of_neutral score ?_).symm
      rw [forall_label_iff]
      exact ⟨le_refl _, not_lt.1 hab, not_lt.1 hac⟩

/-- C2: the predicted label equals the argmax, over the fixed label order
`[neutral, slightly-biased, highly-biased]`, of the raw log-scores (the spec
formulation `specArgmax` breaks ties in favor of the earliest label in that
order); the decision is computed from `predictLogScores`, the raw pre-softmax
log-score vector, not from the softmax output or the sorted list. -/
theorem claim_C2_label_is_argmax_of_raw_scores (m : BiasModel) (text : String) :
    (predict m text).1 = specArgmax (predictLogScores m text) :=
  jsArgmax_eq_specArgmax (predictLogScores m text)

/-! ### Sorting lemmas for the response list -/

theorem insertByScoreDesc_perm (x : Label × ℝ) (l : List (Label × ℝ)) :
    (insertByScoreDesc x l).Perm (x :: l) := by
  induction l with
  | nil => exact List.Perm.refl _
  | cons y ys ih =>
    unfold insertByScoreDesc
    split
    · exact List.Perm.refl _
    · exact ((ih.cons y).trans (List.Perm.swap x y ys))

theorem jsSortByScoreDesc_perm (l : List (Label × ℝ)) :
    (jsSortByScoreDesc l).Perm l := by
  induction l with
  | nil => exact List.Perm.refl _
  | cons x xs ih =>
    unfold jsSortByScoreDesc at *
    exact (insertByScoreDesc_perm x _).trans (ih.cons x)

/-- C3: for every model (including one trained on zero rows) and every query
text, each probability lies in `[0, 1]`, the probabilities sum to 1 within
`1e-6` (in the exact-real semantics they sum to exactly 1), and the response
list carries one `(label, score)` pair per label: its labels are a
permutation of the three-label order. -/
theorem claim_C3_probability_distribution (m : BiasModel) (text : String) :
    (∀ l, 0 ≤ (predict m text).2 l ∧ (predict m text).2 l ≤ 1) ∧
    |((predict m text).2 .neutral + (predict m text).2 .slightlyBiased +
        (predict m text).2 .highlyBiased) - 1| ≤ 1 / 1000000 ∧
    ((probabilitiesList m text).map Prod.fst).Perm labelOrder := by
  refine ⟨fun l => ⟨softmax_nonneg _ l, softmax_le_one _ l⟩, ?_, ?_⟩
  · have h := softmax_sum_eq_one (predictLogScores m text)
    show |((softmaxLogScores _ _ + softmaxLogScores _ _ + softmaxLogScores _ _) - 1)| ≤ _
    rw [h]
    norm_num
  · unfold probabilitiesList
    have hperm := (jsSortByScoreDesc_perm
      (labelOrder.map fun l => (l, (predict m text).2 l))).map Prod.fst
    refine hperm.trans ?_
    rw [List.map_map]
    have hcomp : (Prod.fst ∘ fun l => (l, (predict m text).2 l)) = id := rfl
    rw [hcomp, List.map_id]

/-- C4 (amended): the probability computation is the softmax of the
log-scores — subtract the maximum, exponentiate, normalize by the sum of
exponentials (`specSoftmax`); the exponential sum is always at least 1 (the
maximal entry contributes `exp 0 = 1`), so the `sum || 1` guard never fires;
but the guard, had it fired, divides by 1 — it does not substitute the
uniform distribution (see the counterexample). -/
theorem claim_C4_softmax_with_guard (score : Label → ℝ) :
    softmaxLogScores score = specSoftmax score ∧ 1 ≤ expSum score := by
  refine ⟨?_, one_le_expSum score⟩
  funext l
  rw [softmaxLogScores_apply]
  simp only [specSoftmax]
  rw [sum_label]
  unfold expSum maxScore
  ring_nf

/-- C4 counterexample: on an exponential vector summing to zero, the
normalization step of `softmaxLogScores` (`v / (sum || 1)`) returns the
all-zero vector, not the uniform distribution `1/3` per label. -/
theorem claim_C4_counterexample :
    (0 + (0 : ℝ) + 0 + 0 = 0) ∧
    normalizeExps (fun _ => (0 : ℝ)) = (fun _ => (0 : ℝ)) ∧
    (fun _ : Label => (0 : ℝ)) ≠ (fun _ : Label => (1 : ℝ) / 3) := by
  refine ⟨by norm_num, ?_, ?_⟩
  · funext l
    unfold normalizeExps
    norm_num
  · intro h
    have := congrFun h Label.neutral
    norm_num at this

/-- C7: training on zero rows yields the all-zero model (all document
counts, token counts, token totals, `trainedOn`, and the vocabulary size are
zero), and `predict` on that model never divides by zero — both denominators
`N + numLabels` and `totalTokenPresence[l] + V` are strictly positive — and
returns a well-formed probability distribution. -/
theorem claim_C7_zero_rows_safe :
    (∀ l, (trainNaiveBayes []).docCount l = 0) ∧
    (∀ l t, (trainNaiveBayes []).tokenCounts l t = 0) ∧
    (∀ l, (trainNaiveBayes []).totalTokens l = 0) ∧
    (trainNaiveBayes []).trainedOn = 0 ∧
    (trainNaiveBayes []).vocab.length = 0 ∧
    (0 : ℝ) < (totalDocs (trainNaiveBayes []) : ℝ) + (labelOrder.length : ℝ) ∧
    (∀ l, (0 : ℝ) <
      ((trainNaiveBayes []).totalTokens l : ℝ) + (vocabV (trainNaiveBayes []) : ℝ)) ∧
    (∀ text,
      (predict (trainNaiveBayes []) text).2 .neutral +
        (predict (trainNaiveBayes []) text).2 .slightlyBiased +
        (predict (trainNaiveBayes []) text).2 .highlyBiased = 1 ∧
      ∀ l, 0 ≤ (predict (trainNaiveBayes []) text).2 l ∧
        (predict (trainNaiveBayes []) text).2 l ≤ 1) := by
  refine ⟨fun l => rfl, fun l t => rfl, fun l => rfl, rfl, rfl, ?_, ?_, ?_⟩
  · norm_num [totalDocs, trainNaiveBayes, emptyModel, labelOrder]
  · intro l
    norm_num [trainNaiveBayes, emptyModel, vocabV]
  · intro text
    exact ⟨softmax_sum_eq_one _, fun l => ⟨softmax_nonneg _ l, softmax_le_one _ l⟩⟩

/-- C6: the CSV parser handles quoted fields with embedded commas and
doubled-quote escapes (the field `"a, ""quoted"" value"` parses to the single
field value `a, "quoted" value`), treats `\n` and `\r\n` alike as row
terminators (a `\r` outside quotes is skipped, so `\r\n` steps exactly like
`\n` from any parser state), and drops the trailing empty row produced by a
final newline. -/
theorem claim_C6_csv_parsing :
    parseCSV "\"a, \"\"quoted\"\" value\"" = [["a, \"quoted\" value"]] ∧
    (∀ (f : List Char) (row : List String) (rows : List (List String)) (rest : List Char),
      parseCSVAux false f row rows ('\r' :: '\n' :: rest) =
        parseCSVAux false f row rows ('\n' :: rest)) ∧
    parseCSV "a,b\nc,d" = [["a", "b"], ["c", "d"]] ∧
    parseCSV "a,b\r\nc,d" = [["a", "b"], ["c", "d"]] ∧
    parseCSV "a,b\n" = [["a", "b"]] := by
  refine ⟨by decide, ?_, by decide, by decide, by decide⟩
  intro f row rows rest
  simp [parseCSVAux]

/-! ### Trainer invariants (C8) -/

/-- `sum(documentCount[l] for l in labels)`. -/
def docSum (m : BiasModel) : Nat := (labelOrder.map m.docCount).sum

theorem tokenFold_docCount (lab : Label) :
    ∀ (toks : List String) (m : BiasModel),
      (toks.foldl (addTokenToModel lab) m).docCount = m.docCount := by
  intro toks
  induction toks with
  | nil => intro m; rfl
  | cons t ts ih => intro m; rw [List.foldl_cons, ih]; rfl

theorem trainRowStep_docSum (m : BiasModel) (r : DatasetRow) :
    docSum (trainRowStep m r) = docSum m + 1 := by
  unfold trainRowStep docSum
  rw [tokenFold_docCount]
  rcases r with ⟨tx, lab⟩
  cases lab <;> simp [labelOrder] <;> ring

theorem trainFold_docSum :
    ∀ (rows : List DatasetRow) (m : BiasModel),
      docSum (rows.foldl trainRowStep m) = docSum m + rows.length := by
  intro rows
  induction rows with
  | nil => intro m; simp
  | cons r rs ih =>
    intro m
    rw [List.foldl_cons, ih, trainRowStep_docSum, List.length_cons]
    ring

/-- The vocabulary is exactly the set of tokens with a positive presence
count under some label. -/
def VocabInv (m : BiasModel) : Prop :=
  ∀ t, t ∈ m.vocab ↔ ∃ l, 0 < m.tokenCounts l t

theorem vocabInv_empty : VocabInv emptyModel := by
  intro t
  simp [emptyModel]

theorem vocabInv_addToken (lab : Label) (m : BiasModel) (t0 : String)
    (h : VocabInv m) : VocabInv (addTokenToModel lab m t0) := by
  intro t
  unfold addTokenToModel
  by_cases ht : t = t0
  · subst ht
    simp only []
    constructor
    · intro _
      exact ⟨lab, by simp⟩
    · intro _
      by_cases hmem : t ∈ m.vocab <;> simp [hmem]
  · simp only []
    have hmem : (t ∈ if t0 ∈ m.vocab then m.vocab else m.vocab ++ [t0]) ↔ t ∈ m.vocab := by
      by_cases h0 : t0 ∈ m.vocab <;> simp [h0, ht]
    rw [hmem, h t]
    constructor
    · rintro ⟨l, hl⟩
      exact ⟨l, by simp [ht, hl]⟩
    · rintro ⟨l, hl⟩
      refine ⟨l, ?_⟩
      simpa [ht] using hl

theorem vocabInv_tokenFold (lab : Label) :
    ∀ (toks : List String) (m : BiasModel), VocabInv m →
      VocabInv (toks.foldl (addTokenToModel lab) m) := by
  intro toks
  induction toks with
  | nil => intro m h; exact h
  | cons t ts ih =>
    intro m h
    rw [List.foldl_cons]
    exact ih _ (vocabInv_addToken lab m t h)

theorem vocabInv_trainRowStep (m : BiasModel) (r : DatasetRow)
    (h : VocabInv m) : VocabInv (trainRowStep m r) := by
  unfold trainRowStep
  refine vocabInv_tokenFold r.label _ _ ?_
  intro t
  exact h t

theorem vocabInv_trainFold :
    ∀ (rows : List DatasetRow) (m : BiasModel), VocabInv m →
      VocabInv (rows.foldl trainRowStep m) := by
  intro rows
  induction rows with
  | nil => intro m h; exact h
  | cons r rs ih =>
    intro m h
    rw [List.foldl_cons]
    exact ih _ (vocabInv_trainRowStep m r h)

/-- C8: for every training set, the per-label document counts sum to
`trainedOn`, which equals the number of input rows, and the vocabulary is
exactly the set of tokens with a positive `tokenPresenceCount` entry under
some label. -/
theorem claim_C8_trainer_invariants (rows : List DatasetRow) :
    ((labelOrder.map (trainNaiveBayes rows).docCount).sum = (trainNaiveBayes rows).trainedOn ∧
      (trainNaiveBayes rows).trainedOn = rows.length) ∧
    ∀ t, (t ∈ (trainNaiveBayes rows).vocab ↔
      ∃ l, 0 < (trainNaiveBayes rows).tokenCounts l t) := by
  constructor
  · constructor
    · show docSum (trainNaiveBayes rows) = _
      unfold trainNaiveBayes
      have h := trainFold_docSum rows emptyModel
      unfold docSum at h ⊢
      simp only []
      rw [h]
      simp [emptyModel, labelOrder]
    · rfl
  · intro t
    unfold trainNaiveBayes
    exact vocabInv_trainFold rows emptyModel vocabInv_empty t

/-! ### Model cache (C9, `getModel` in `route.ts`)

JavaScript runs `getModel`'s body synchronously up to returning a promise,
so the cache is an event-interleaved state machine: `call` is one synchronous
execution of the body, `success`/`failure` are the `.then`/`.catch` handlers
of the in-flight build promise.  Models are identified by build id; equal
ids mean the reference-identical cached object. -/

/-- `cachedModel` / `buildingPromise` module state, plus a fresh-id counter
and a count of training runs started. -/
structure CacheState where
  cached : Option Nat
  building : Option Nat
  nextId : Nat
  runs : Nat
deriving DecidableEq, Repr

/-- Module load: `cachedModel = null; buildingPromise = null`. -/
def initCache : CacheState := ⟨none, none, 0, 0⟩

/-- What a call observes: an already-resolved model, or the promise of the
build with the given id. -/
inductive CallResult where
  | done (id : Nat)
  | waiting (id : Nat)
deriving DecidableEq, Repr

/-- One synchronous execution of `getModel()`:
`if (cachedModel) return cachedModel; if (buildingPromise) return
buildingPromise; buildingPromise = buildModel().then(...)` — starting a
build is the only step that increments `runs`. -/
def getModelCall (s : CacheState) : CacheState × CallResult :=
  match s.cached with
  | some i => (s, .done i)
  | none =>
    match s.building with
    | some b => (s, .waiting b)
    | none =>
      ({ s with building := some s.nextId, nextId := s.nextId + 1, runs := s.runs + 1 },
        .waiting s.nextId)

/-- The `.then` handler: `cachedModel = m; buildingPromise = null`. -/
def buildSucceeds (s : CacheState) : CacheState :=
  match s.building with
  | some b => { s with cached := some b, building := none }
  | none => s

/-- The `.catch` handler: `buildingPromise = null` — nothing is cached. -/
def buildFails (s : CacheState) : CacheState :=
  match s.building with
  | some _ => { s with building := none }
  | none => s

inductive CacheEvent where
  | call
  | success
  | failure

def cacheStep (s : CacheState) : CacheEvent → CacheState
  | .call => (getModelCall s).1
  | .success => buildSucceeds s
  | .failure => buildFails s

/-- The cache state after a sequence of interleaved events, from module
load. -/
def cacheExec (evs : List CacheEvent) : CacheState := evs.foldl cacheStep initCache

/-- Reachable-state invariant: once a model is cached, no build is in
flight. -/
def CacheInv (s : CacheState) : Prop := ∀ i, s.cached = some i → s.building = none

theorem cacheInv_step (s : CacheState) (e : CacheEvent) (h : CacheInv s) :
    CacheInv (cacheStep s e) := by
  cases e with
  | call =>
    intro i hi
    cases hc : s.cached with
    | some j =>
      simp [cacheStep, getModelCall, hc] at hi ⊢
      exact h j hc
    | none =>
      cases hb : s.building with
      | some b => simp [cacheStep, getModelCall, hc, hb] at hi
      | none => simp [cacheStep, getModelCall, hc, hb] at hi
  | success =>
    intro i hi
    cases hb : s.building with
    | some b => simp [cacheStep, buildSucceeds, hb]
    | none => simp [cacheStep, buildSucceeds, hb]
  | failure =>
    intro i hi
    cases hb : s.building with
    | some b => simp [cacheStep, buildFails, hb]
    | none => simp [cacheStep, buildFails, hb]

theorem cacheInv_exec (evs : List CacheEvent) : CacheInv (cacheExec evs) := by
  unfold cacheExec
  have : ∀ (l : List CacheEvent) (s : CacheState), CacheInv s → CacheInv (l.foldl cacheStep s) := by
    intro l
    induction l with
    | nil => intro s h; exact h
    | cons e es ih => intro s h; exact ih _ (cacheInv_step s e h)
  refine this evs initCache ?_
  intro i hi
  simp [initCache] at hi

theorem cacheStep_frozen (s : CacheState) (e : CacheEvent) (i : Nat)
    (hInv : CacheInv s) (h : s.cached = some i) :
    (cacheStep s e).cached = some i ∧ (cacheStep s e).runs = s.runs := by
  cases e
  · unfold cacheStep getModelCall
    simp [h]
  · unfold cacheStep buildSucceeds
    rw [hInv i h]
    exact ⟨h, rfl⟩
  · unfold cacheStep buildFails
    rw [hInv i h]
    exact ⟨h, rfl⟩

theorem cacheRun_frozen (i : Nat) :
    ∀ (evs' : List CacheEvent) (s : CacheState), CacheInv s → s.cached = some i →
      (evs'.foldl cacheStep s).cached = some i ∧ (evs'.foldl cacheStep s).runs = s.runs := by
  intro evs'
  induction evs' with
  | nil => intro s _ h; exact ⟨h, rfl⟩
  | cons e es ih =>
    intro s hInv h
    have hf := cacheStep_frozen s e i hInv h
    have hInv' := cacheInv_step s e hInv
    rw [List.foldl_cons]
    have hrec := ih (cacheStep s e) hInv' hf.1
    exact ⟨hrec.1, hrec.2.trans hf.2⟩

/-- C9: the model cache is idempotent and single-flight.  (i) With a cached
model, a call returns it with no state change (no retraining); and along any
event interleaving after a model is cached, the cache keeps returning that
same model id and the number of training runs never grows.  (ii) With a
build in flight, a call joins that build's promise and changes nothing, and
two concurrent first calls from the initial state start exactly one run and
wait on the same build.  (iii) A build failure clears the in-flight marker,
caches nothing, and a subsequent call may retry (it starts a fresh run). -/
theorem claim_C9_cache_single_flight :
    (∀ s i, s.cached = some i → getModelCall s = (s, .done i)) ∧
    (∀ s b, s.cached = none → s.building = some b → getModelCall s = (s, .waiting b)) ∧
    ((cacheExec [.call, .call]).runs = 1 ∧
      (getModelCall initCache).2 = .waiting 0 ∧
      (getModelCall (getModelCall initCache).1).2 = .waiting 0) ∧
    (∀ s b, s.building = some b →
      (buildFails s).building = none ∧ (buildFails s).cached = s.cached) ∧
    (∀ s b, s.cached = none → s.building = some b →
      (getModelCall (buildFails s)).1.runs = s.runs + 1) ∧
    (∀ evs i, (cacheExec evs).cached = some i → ∀ evs',
      (cacheExec (evs ++ evs')).cached = some i ∧
        (cacheExec (evs ++ evs')).runs = (cacheExec evs).runs) := by
  refine ⟨?_, ?_, by decide, ?_, ?_, ?_⟩
  · intro s i h
    simp [getModelCall, h]
  · intro s b h1 h2
    simp [getModelCall, h1, h2]
  · intro s b h
    simp [buildFails, h]
  · intro s b h1 h2
    simp [buildFails, getModelCall, h1, h2]
  · intro evs i h evs'
    have happ : cacheExec (evs ++ evs') = evs'.foldl cacheStep (cacheExec evs) := by
      unfold cacheExec
      rw [List.foldl_append]
    rw [happ]
    exact cacheRun_frozen i evs' (cacheExec evs) (cacheInv_exec evs) h

/-- Witness for C9: a concrete state with an in-flight build — a call joins
that build without starting a new one. -/
theorem claim_C9_cache_single_flight_witness :
    ((⟨none, some 7, 8, 3⟩ : CacheState).cached = none ∧
      (⟨none, some 7, 8, 3⟩ : CacheState).building = some 7) ∧
    getModelCall ⟨none, some 7, 8, 3⟩ = (⟨none, some 7, 8, 3⟩, .waiting 7) :=
  ⟨⟨rfl, rfl⟩, claim_C9_cache_single_flight.2.1 ⟨none, some 7, 8, 3⟩ 7 rfl rfl⟩

/-! ### Extractive summarizer (`extractiveSummary` in the summarize route)

Strings are processed as `List Char`.  `jsToLower`/`jsToUpper` cover the
ASCII range, which is exact for the character classes these functions feed
(`[a-z0-9]+` token runs, ASCII bullet templates). -/

namespace Summarize

/-- The JS `\s` class (code points matched by `/\s/`). -/
def wsCodes : List Nat :=
  [9, 10, 11, 12, 13, 32, 160, 0x1680, 0x2000, 0x2001, 0x2002, 0x2003, 0x2004,
   0x2005, 0x2006, 0x2007, 0x2008, 0x2009, 0x200a, 0x2028, 0x2029, 0x202f,
   0x205f, 0x3000, 0xfeff]

def isWs (c : Char) : Bool := wsCodes.contains c.toNat

def isDigit (c : Char) : Bool := '0' ≤ c && c ≤ '9'

/-- The JS `\w` class: `[A-Za-z0-9_]`. -/
def isWordChar (c : Char) : Bool :=
  ('a' ≤ c && c ≤ 'z') || ('A' ≤ c && c ≤ 'Z') || isDigit c || c = '_'

/-- One right-fold step of whitespace collapsing: a whitespace character
merges into a following space, otherwise contributes one space. -/
def collapseStep (c : Char) (acc : List Char) : List Char :=
  if isWs c then (if acc.head? = some ' ' then acc else ' ' :: acc) else c :: acc

/-- `s.replace(/\s+/g, " ")`: each maximal whitespace run becomes one
space. -/
def collapse (l : List Char) : List Char := l.foldr collapseStep []

/-- Remove trailing whitespace. -/
def trimRight : List Char → List Char
  | [] => []
  | c :: t =>
    match trimRight t with
    | [] => if isWs c then [] else [c]
    | r => c :: r

/-- JS `String.prototype.trim`. -/
def trim (l : List Char) : List Char := trimRight (l.dropWhile isWs)

/-- `text.replace(/\s+/g, " ").trim()` — the `normalized` value. -/
def normalizeWs (l : List Char) : List Char := trim (collapse l)

/-- The `canonical` helper of the source:
`s.replace(/\s+/g, " ").trim().toLowerCase()`. -/
def canonical (l : List Char) : List Char := (normalizeWs l).map jsToLower

def isSplitPunct (c : Char) : Bool := c = '.' || c = '!' || c = '?' || c = ';' || c = ':'

/-- The sentence-split regex
`/(?<=[.!?])\s+|(?<=;)\s+|(?<=:)\s+/` applied to the (already collapsed,
single-space) normalized text: split at a whitespace character whose
predecessor is one of `. ! ? ; :`, consuming the whitespace. -/
def splitSentencesAux (prev : Char) (cur : List Char) : List Char → List (List Char)
  | [] => [cur.reverse]
  | c :: rest =>
    if isWs c && isSplitPunct prev then cur.reverse :: splitSentencesAux c [] rest
    else splitSentencesAux c (c :: cur) rest

/-- The summarizer's stopword set. -/
def stopWords : List String :=
  ["the", "is", "in", "and", "to", "of", "a", "for", "on", "that", "with",
   "as", "by", "at", "from", "be", "this", "it", "an", "are", "was", "were",
   "or", "but", "not", "has", "have", "had", "their", "they", "his", "her",
   "its", "you", "your", "our", "them", "who", "what", "when", "where",
   "why", "how"]

/-- The summarizer's tokenizer: lowercase, `[a-z0-9]+` runs, length ≥ 3,
stopwords removed. -/
def tokenize (s : List Char) : List String :=
  ((splitRuns (fun c => ('a' ≤ c && c ≤ 'z') || isDigit c) (s.map jsToLower)).map
      fun r => String.mk r).filter
    (fun t => 3 ≤ t.length && !(stopWords.contains t))

/-- `tf.set(t, (tf.get(t) || 0) + 1)` on a JS `Map` (insertion-ordered
association list). -/
def bumpTF (acc : List (String × Nat)) (t : String) : List (String × Nat) :=
  if acc.any (fun p => p.1 = t) then
    acc.map (fun p => if p.1 = t then (p.1, p.2 + 1) else p)
  else acc ++ [(t, 1)]

def tfOf (toks : List String) : List (String × Nat) := toks.foldl bumpTF []

/-- Stable insertion for descending sort by `key`: an element is placed
after exactly the earlier elements with a strictly larger key, which is the
unique stable descending order — the result of the JS stable
`sort((a, b) => bKey - aKey)`. -/
def insertDescBy {α : Type} (key : α → Nat) (x : α) : List α → List α
  | [] => [x]
  | y :: ys => if key x < key y then y :: insertDescBy key x ys else x :: y :: ys

def sortDescBy {α : Type} (key : α → Nat) (l : List α) : List α :=
  l.foldr (insertDescBy key) []

/-- `topKeywords`: term frequencies in first-occurrence order, stable-sorted
by descending count, first `n` keys. -/
def topKeywords (s : List Char) (n : Nat) : List String :=
  ((sortDescBy Prod.snd (tfOf (tokenize s))).take n).map Prod.fst

/-- `String.prototype.lastIndexOf` for one character (-1 when absent). -/
def lastIdxOf (c : Char) (l : List Char) : Int :=
  (l.foldl (fun (p : Int × Int) d => (if d = c then p.2 else p.1, p.2 + 1)) (-1, 0)).1

/-- The `truncate` helper: within budget return unchanged; otherwise cut at
`mx`, back up to the last `.`/`,`/space if it sits beyond position 40, trim,
and append the ellipsis character. -/
def truncate (s : List Char) (mx : Nat) : List Char :=
  if s.length ≤ mx then s
  else
    let cut := s.take mx
    let lastBreak := max (lastIdxOf '.' cut) (max (lastIdxOf ',' cut) (lastIdxOf ' ' cut))
    trim (if 40 < lastBreak then cut.take lastBreak.toNat else cut) ++ ['…']

def jsToUpper (c : Char) : Char :=
  if 'a' ≤ c ∧ c ≤ 'z' then Char.ofNat (c.toNat - 32) else c

/-- `replace(/^\w/, c => c.toUpperCase())`. -/
def capitalizeFirst (l : List Char) : List Char :=
  match l with
  | [] => []
  | c :: rest => if isWordChar c then jsToUpper c :: rest else c :: rest

/-- `titleFromText`: first sentence (or the argument), first 12 tokens
joined by spaces and capitalized; if no tokens, the truncated base. -/
def titleFromText (sentences : List (List Char)) (s : List Char) : List Char :=
  let base := sentences.headD s
  let toks := (tokenize base).take 12
  if toks.isEmpty then truncate base 80
  else capitalizeFirst (String.intercalate " " toks).toList

/-! The two regexes of `extractNumbersDates`, embedded as backtracking
scanners.  A "candidate list" holds the lengths a sub-pattern can match, in
the engine's preference (backtracking) order; the first candidate that also
satisfies the trailing `\b` wins. -/

def digitRun (l : List Char) : Nat := (l.takeWhile isDigit).length

/-- One `(?:,\d{3})` group. -/
def isGroup (l : List Char) : Bool :=
  match l with
  | ',' :: r => 3 ≤ digitRun r
  | _ => false

/-- Maximal number of consecutive `(?:,\d{3})` groups (fuel-bounded). -/
def groupChainF : Nat → List Char → Nat
  | 0, _ => 0
  | fuel + 1, rest => if isGroup rest then 1 + groupChainF fuel (rest.drop 4) else 0

/-- `[n, n-1, …, 1]` — greedy preference order for a counted repetition. -/
def descRange (n : Nat) : List Nat := (List.range n).map (fun i => n - i)

/-- `\d{1,3}(?:,\d{3})+` candidate lengths (digits greedy-outer, groups
greedy-inner). -/
def alt1Cands (rest : List Char) : List Nat :=
  (descRange (min 3 (digitRun rest))).flatMap (fun k =>
    (descRange (groupChainF rest.length (rest.drop k))).map (fun g => k + 4 * g))

/-- `\d+` candidate lengths. -/
def alt2Cands (rest : List Char) : List Nat := descRange (digitRun rest)

def numCoreCands (rest : List Char) : List Nat := alt1Cands rest ++ alt2Cands rest

/-- `(?:\.\d+)?` candidate lengths (greedy, then zero). -/
def fracCands (rest : List Char) : List Nat :=
  match rest with
  | '.' :: r => (descRange (digitRun r)).map (· + 1) ++ [0]
  | _ => [0]

/-- `%?` candidate lengths. -/
def pctCands (rest : List Char) : List Nat :=
  match rest with
  | '%' :: _ => [1, 0]
  | _ => [0]

/-- `\b` after a candidate match of length `n` starting at `rest`. -/
def boundaryAfter (rest : List Char) (n : Nat) : Bool :=
  match (rest.take n).getLast?, (rest.drop n).head? with
  | some last, some next => isWordChar last != isWordChar next
  | some last, none => isWordChar last
  | none, _ => false

/-- Length of the match of
`\b(?:\d{1,3}(?:,\d{3})+|\d+)(?:\.\d+)?%?\b` at this position, if any.
Every alternative starts with a digit (a word character), so the leading
`\b` holds exactly when the preceding character is not a word character. -/
def numMatchLen (prevWord : Bool) (rest : List Char) : Option Nat :=
  if prevWord then none
  else
    ((numCoreCands rest).flatMap (fun n1 =>
      (fracCands (rest.drop n1)).flatMap (fun n2 =>
        (pctCands (rest.drop (n1 + n2))).map (fun n3 => n1 + n2 + n3)))).find?
      (boundaryAfter rest)

/-- Global scan (`String.prototype.match` with `/g`): leftmost matches, each
scan resuming after the previous match; `prevWord` tracks the word-ness of
the preceding character for the `\b` assertions. -/
def scanAux (matchLen : Bool → List Char → Option Nat) :
    Nat → Bool → List Char → List String
  | 0, _, _ => []
  | fuel + 1, prevWord, rest =>
    match rest with
    | [] => []
    | c :: rest' =>
      match matchLen prevWord rest with
      | some n =>
        if n = 0 then scanAux matchLen fuel (isWordChar c) rest'
        else
          String.mk (rest.take n) ::
            scanAux matchLen fuel (isWordChar ((rest.take n).getLastD c)) (rest.drop n)
      | none => scanAux matchLen fuel (isWordChar c) rest'

def scanNums (l : List Char) : List String := scanAux numMatchLen l.length false l

/-- Month alternatives of the date regex, in alternation order; within one
month the optional-suffix forms in the engine's preference order. -/
def monthForms : List (List String) :=
  [["january", "jan"], ["february", "feb"], ["march", "mar"], ["april", "apr"],
   ["may"], ["june", "jun"], ["july", "jul"], ["august", "aug"],
   ["sept.", "september", "sep"], ["october", "oct"], ["november", "nov"],
   ["december", "dec"]]

/-- Case-insensitive prefix test (the date regex carries the `i` flag). -/
def startsWithCI (rest : List Char) (pat : String) : Bool :=
  let p := pat.toList
  p.length ≤ rest.length && (rest.take p.length).map jsToLower = p

/-- Length of the match of
`\b(?:\d{4}|Jan(?:uary)?|…|Dec(?:ember)?)\b` (case-insensitive) at this
position, if any.  All alternatives start with a word character, so the
leading `\b` holds exactly when the preceding character is not one. -/
def dateMatchLen (prevWord : Bool) (rest : List Char) : Option Nat :=
  if prevWord then none
  else
    ((if 4 ≤ digitRun rest then [4] else []) ++
      monthForms.flatMap (fun forms =>
        (forms.filter (startsWithCI rest)).map String.length)).find?
      (boundaryAfter rest)

def scanDates (l : List Char) : List String := scanAux dateMatchLen l.length false l

/-- `extractNumbersDates`: number matches then date matches, dedupicated via
a JS `Set` (first occurrence kept, in order). -/
def extractNumbersDates (l : List Char) : List String :=
  jsDedup (scanNums l ++ scanDates l)

def insertAsc (x : Nat) : List Nat → List Nat
  | [] => [x]
  | y :: ys => if x ≤ y then x :: y :: ys else y :: insertAsc x ys

/-- `chosenIdxs.sort((a, b) => a - b)`. -/
def sortAsc (l : List Nat) : List Nat := l.foldr insertAsc []

/-- The short-input branch of `extractiveSummary`: Topic / optional Key
terms / optional Facts / Summary bullets, padded to at least
`min 3 maxPoints` bullets, truncated to `maxPoints`, newline-joined. -/
def shortPath (normalized : List Char) (sentences : List (List Char))
    (maxPoints : Nat) : List Char :=
  let keywords := topKeywords normalized 6
  let facts := (extractNumbersDates normalized).take 6
  let topic := titleFromText sentences normalized
  let bullets :=
    [("- Topic: ".toList ++ truncate topic 90),
     (if keywords.isEmpty then []
      else "- Key terms: ".toList ++ (String.intercalate ", " (keywords.take 5)).toList),
     (if facts.isEmpty then []
      else "- Facts: ".toList ++ (String.intercalate ", " facts).toList),
     ("- Summary: ".toList ++ truncate normalized 160)].filter (fun b => b ≠ [])
  let bullets :=
    bullets ++ List.replicate (min 3 maxPoints - bullets.length) "- Context: brief update".toList
  List.intercalate ['\n'] (bullets.take maxPoints)

/-- The standard branch of `extractiveSummary`: global term frequencies,
sentence scores, stable top-`targetCount` selection re-sorted to document
order, bullets, and the defensive anti-echo check. -/
def standardPath (normalized : List Char) (sentences : List (List Char))
    (maxPoints : Nat) : List Char :=
  let freq := tfOf (sentences.flatMap tokenize)
  let lookup := fun t => (((freq.find? (fun p => p.1 = t)).map Prod.snd).getD 0)
  let scored := sentences.enum.map
    (fun p => (p.1, p.2, (tokenize p.2).foldl (fun acc t => acc + lookup t) 0))
  let sorted := sortDescBy (fun x => x.2.2) scored
  let targetCount := min maxPoints (max 3 ((sentences.length + 3) / 4))
  let chosen := sortAsc ((sorted.take targetCount).map (fun x => x.1))
  let bullets := chosen.map (fun i => "- ".toList ++ truncate (sentences.getD i []) 180)
  let result := List.intercalate ['\n'] bullets
  if canonical result = canonical normalized then
    List.intercalate ['\n'] ["- Summary:".toList, "- ".toList ++ truncate normalized 200]
  else result

/-- The sentence list of `extractiveSummary`: split, drop empties, fall back
to the whole normalized text when no sentence remains. -/
def sentencesOf (normalized : List Char) : List (List Char) :=
  let sentenceSplit := (splitSentencesAux '\x00' [] normalized).filter (fun x => x ≠ [])
  if 0 < sentenceSplit.length then sentenceSplit else [normalized]

/-- `extractiveSummary` of the summarize route. -/
def extractiveSummary (text : String) (maxPoints : Nat) : String :=
  let normalized := normalizeWs text.toList
  if normalized = [] then "- No content provided."
  else
    let sentences := sentencesOf normalized
    if normalized.length < 280 || sentences.length ≤ 2 then
      String.mk (shortPath normalized sentences maxPoints)
    else String.mk (standardPath normalized sentences maxPoints)

/-! #### Whitespace lemmas -/

/-- Well-collapsed character lists: every whitespace character is a single
space and no two spaces are adjacent. -/
def goodWs : List Char → Prop
  | [] => True
  | c :: t => (isWs c = true → c = ' ' ∧ t.head? ≠ some ' ') ∧ goodWs t

theorem collapse_goodWs (l : List Char) : goodWs (collapse l) := by
  induction l with
  | nil => trivial
  | cons c t ih =>
    show goodWs (collapseStep c (collapse t))
    unfold collapseStep
    by_cases hc : isWs c = true
    · rw [if_pos hc]
      by_cases hh : (collapse t).head? = some ' '
      · rw [if_pos hh]; exact ih
      · rw [if_neg hh]
        exact ⟨fun _ => ⟨rfl, hh⟩, ih⟩
    · rw [if_neg hc]
      exact ⟨fun h => absurd h hc, ih⟩

theorem goodWs_collapse_eq : ∀ (l : List Char), goodWs l → collapse l = l := by
  intro l
  induction l with
  | nil => intro _; rfl
  | cons c t ih =>
    intro h
    show collapseStep c (collapse t) = c :: t
    rw [ih h.2]
    unfold collapseStep
    by_cases hc : isWs c = true
    · obtain ⟨hce, hh⟩ := h.1 hc
      rw [if_pos hc, if_neg hh, hce]
    · rw [if_neg hc]

theorem goodWs_dropWhile (p : Char → Bool) :
    ∀ (l : List Char), goodWs l → goodWs (l.dropWhile p) := by
  intro l
  induction l with
  | nil => intro _; trivial
  | cons c t ih =>
    intro h
    rw [List.dropWhile_cons]
    by_cases hp : p c = true
    · rw [if_pos hp]; exact ih h.2
    · rw [if_neg hp]; exact h

theorem trimRight_head? (l : List Char) :
    trimRight l = [] ∨ (trimRight l).head? = l.head? := by
  cases l with
  | nil => left; rfl
  | cons c t =>
    have heq : trimRight (c :: t) = (match trimRight t with
      | [] => if isWs c then [] else [c]
      | r => c :: r) := rfl
    rw [heq]
    cases htr : trimRight t with
    | nil =>
      by_cases hc : isWs c = true
      · left; simp [hc]
      · right; simp [hc]
    | cons d r' => right; rfl

theorem goodWs_trimRight : ∀ (l : List Char), goodWs l → goodWs (trimRight l) := by
  intro l
  induction l with
  | nil => intro _; trivial
  | cons c t ih =>
    intro h
    show goodWs (match trimRight t with
      | [] => if isWs c then [] else [c]
      | r => c :: r)
    cases htr : trimRight t with
    | nil =>
      by_cases hc : isWs c = true
      · simp only [hc, if_true]; trivial
      · simp only [hc, if_false]
        exact ⟨fun hw => absurd hw hc, trivial⟩
    | cons d r' =>
      refine ⟨?_, htr ▸ ih h.2⟩
      intro hw
      obtain ⟨hce, hh⟩ := h.1 hw
      refine ⟨hce, ?_⟩
      rcases trimRight_head? t with he | he
      · rw [htr] at he; exact absurd he (by simp)
      · rw [htr] at he
        intro hcontra
        rw [← he, hcontra] at hh
        exact hh rfl

theorem head_dropWhile (p : Char → Bool) :
    ∀ (l : List Char) (c : Char), (l.dropWhile p).head? = some c → p c = false := by
  intro l
  induction l with
  | nil => intro c h; simp at h
  | cons a t ih =>
    intro c h
    rw [List.dropWhile_cons] at h
    by_cases hp : p a = true
    · rw [if_pos hp] at h; exact ih c h
    · rw [if_neg hp] at h
      simp at h
      rw [← h]
      simpa using hp

theorem dropWhile_eq_self_of_head (p : Char → Bool) (l : List Char)
    (h : ∀ c, l.head? = some c → p c = false) : l.dropWhile p = l := by
  cases l with
  | nil => rfl
  | cons c t =>
    rw [List.dropWhile_cons, if_neg]
    simp [h c rfl]

theorem trimRight_eq_self : ∀ (l : List Char),
    (∀ c, l.getLast? = some c → isWs c = false) → trimRight l = l := by
  intro l
  induction l with
  | nil => intro _; rfl
  | cons c t ih =>
    intro h
    show (match trimRight t with
      | [] => if isWs c then [] else [c]
      | r => c :: r) = c :: t
    cases t with
    | nil =>
      have hc := h c rfl
      simp [trimRight, hc]
    | cons d t' =>
      have ht : trimRight (d :: t') = d :: t' := by
        refine ih ?_
        intro e he
        exact h e (by rw [List.getLast?_cons_cons]; exact he)
      rw [ht]

theorem trimRight_getLast : ∀ (l : List Char) (c : Char),
    (trimRight l).getLast? = some c → isWs c = false := by
  intro l
  induction l with
  | nil => intro c h; simp [trimRight] at h
  | cons a t ih =>
    intro c h
    rw [show trimRight (a :: t) = (match trimRight t with
      | [] => if isWs a then [] else [a]
      | r => a :: r) from rfl] at h
    cases htr : trimRight t with
    | nil =>
      rw [htr] at h
      by_cases ha : isWs a = true
      · rw [if_pos ha] at h; simp at h
      · rw [if_neg ha] at h
        simp at h
        rw [← h]
        simpa using ha
    | cons d r' =>
      rw [htr] at h
      rw [List.getLast?_cons_cons] at h
      exact ih c (htr ▸ h)

theorem trimRight_idem : ∀ (l : List Char), trimRight (trimRight l) = trimRight l := by
  intro l
  refine trimRight_eq_self (trimRight l) ?_
  exact trimRight_getLast l

theorem trim_trim (l : List Char) : trim (trim l) = trim l := by
  unfold trim
  have hdw : (trimRight (l.dropWhile isWs)).dropWhile isWs = trimRight (l.dropWhile isWs) := by
    refine dropWhile_eq_self_of_head _ _ ?_
    intro c hc
    rcases trimRight_head? (l.dropWhile isWs) with he | he
    · rw [he] at hc; simp at hc
    · rw [he] at hc
      exact head_dropWhile isWs l c hc
  rw [hdw, trimRight_idem]

theorem goodWs_trim (l : List Char) (h : goodWs l) : goodWs (trim l) :=
  goodWs_trimRight _ (goodWs_dropWhile _ _ h)

theorem normalizeWs_goodWs (l : List Char) : goodWs (normalizeWs l) :=
  goodWs_trim _ (collapse_goodWs l)

theorem normalizeWs_idem (l : List Char) : normalizeWs (normalizeWs l) = normalizeWs l := by
  show trim (collapse (normalizeWs l)) = normalizeWs l
  rw [goodWs_collapse_eq _ (normalizeWs_goodWs l)]
  show trim (trim (collapse l)) = _
  rw [trim_trim]
  rfl

theorem canonical_normalizeWs (l : List Char) : canonical (normalizeWs l) = canonical l := by
  unfold canonical
  rw [normalizeWs_idem]

theorem normalizeWs_head (l : List Char) (c : Char)
    (h : (normalizeWs l).head? = some c) : isWs c = false := by
  unfold normalizeWs trim at h
  rcases trimRight_head? ((collapse l).dropWhile isWs) with he | he
  · rw [he] at h; simp at h
  · rw [he] at h
    exact head_dropWhile isWs (collapse l) c h

theorem normalizeWs_getLast (l : List Char) (c : Char)
    (h : (normalizeWs l).getLast? = some c) : isWs c = false :=
  trimRight_getLast _ c h

theorem collapse_length_le (l : List Char) : (collapse l).length ≤ l.length := by
  induction l with
  | nil => exact le_refl _
  | cons c t ih =>
    show (collapseStep c (collapse t)).length ≤ t.length + 1
    unfold collapseStep
    by_cases hc : isWs c = true
    · rw [if_pos hc]
      by_cases hh : (collapse t).head? = some ' '
      · rw [if_pos hh]; exact le_trans ih (Nat.le_succ _)
      · rw [if_neg hh]; simpa using Nat.succ_le_succ ih
    · rw [if_neg hc]; simpa using Nat.succ_le_succ ih

theorem trimRight_length_le : ∀ (l : List Char), (trimRight l).length ≤ l.length := by
  intro l
  induction l with
  | nil => exact le_refl _
  | cons c t ih =>
    show (match trimRight t with
      | [] => if isWs c then [] else [c]
      | r => c :: r).length ≤ t.length + 1
    cases htr : trimRight t with
    | nil =>
      by_cases hc : isWs c = true <;> simp [hc]
    | cons d r' =>
      rw [htr] at ih
      simpa using Nat.succ_le_succ ih

theorem trim_length_le (l : List Char) : (trim l).length ≤ l.length := by
  unfold trim
  refine le_trans (trimRight_length_le _) ?_
  exact (List.dropWhile_suffix isWs).length_le

theorem canonical_length_le (l : List Char) : (canonical l).length ≤ l.length := by
  unfold canonical normalizeWs
  rw [List.length_map]
  exact le_trans (trim_length_le _) (collapse_length_le l)

theorem collapse_cons_nonWs (c : Char) (t : List Char) (h : isWs c = false) :
    collapse (c :: t) = c :: collapse t := by
  show collapseStep c (collapse t) = _
  unfold collapseStep
  rw [if_neg (by simp [h])]

theorem collapse_ne_nil : ∀ (l : List Char) (c : Char), c ∈ l → isWs c = false →
    collapse l ≠ [] := by
  intro l
  induction l with
  | nil => intro c hc; simp at hc
  | cons a t ih =>
    intro c hc hw
    show collapseStep a (collapse t) ≠ []
    unfold collapseStep
    by_cases ha : isWs a = true
    · rw [if_pos ha]
      have hct : c ∈ t := by
        rcases List.mem_cons.1 hc with he | ht
        · rw [he] at hw; rw [hw] at ha; exact absurd ha (by simp)
        · exact ht
      by_cases hh : (collapse t).head? = some ' '
      · rw [if_pos hh]; exact ih c hct hw
      · rw [if_neg hh]; simp
    · rw [if_neg ha]; simp

theorem foldr_collapseStep_append (X : List Char) :
    ∀ (M : List Char), M.head? ≠ some ' ' →
      X.foldr collapseStep M = collapse X ++ M := by
  induction X with
  | nil => intro M _; rfl
  | cons c t ih =>
    intro M hM
    rw [List.foldr_cons, ih M hM]
    show collapseStep c (collapse t ++ M) = collapseStep c (collapse t) ++ M
    unfold collapseStep
    by_cases hc : isWs c = true
    · rw [if_pos hc, if_pos hc]
      cases hct : collapse t with
      | nil =>
        simp only [List.nil_append]
        rw [if_neg hM, if_neg (by simp)]
        rfl
      | cons d r =>
        simp only [List.cons_append, List.head?_cons]
        by_cases hd : d = ' ' <;> simp [hd]
    · rw [if_neg hc, if_neg hc]
      rfl

theorem collapse_append (X Y : List Char) (hY : (collapse Y).head? ≠ some ' ') :
    collapse (X ++ Y) = collapse X ++ collapse Y := by
  show (X ++ Y).foldr collapseStep [] = _
  rw [List.foldr_append]
  exact foldr_collapseStep_append X _ hY

theorem foldr_collapseStep_append_of_last (X : List Char) :
    ∀ (M : List Char), X ≠ [] →
      (∀ c, X.getLast? = some c → isWs c = false) →
      X.foldr collapseStep M = collapse X ++ M := by
  induction X with
  | nil => intro M h _; exact absurd rfl h
  | cons c t ih =>
    intro M _ hlast
    cases t with
    | nil =>
      have hc : isWs c = false := hlast c rfl
      show collapseStep c M = collapseStep c [] ++ M
      unfold collapseStep
      rw [if_neg (by simp [hc]), if_neg (by simp [hc])]
      rfl
    | cons d t' =>
      have hlast' : ∀ e, (d :: t').getLast? = some e → isWs e = false := by
        intro e he
        exact hlast e (by rw [List.getLast?_cons_cons]; exact he)
      rw [List.foldr_cons, ih M (by simp) hlast']
      show collapseStep c (collapse (d :: t') ++ M) = collapseStep c (collapse (d :: t')) ++ M
      obtain ⟨e, he⟩ : ∃ e, (d :: t').getLast? = some e := by
        cases hgl : (d :: t').getLast? with
        | none => simp at hgl
        | some e => exact ⟨e, rfl⟩
      have hmem : e ∈ (d :: t') := by
        obtain ⟨hne, hx⟩ := List.mem_getLast?_eq_getLast (by rw [Option.mem_def]; exact he)
        rw [hx]
        exact List.getLast_mem hne
      have hcn : collapse (d :: t') ≠ [] := collapse_ne_nil _ e hmem (hlast' e he)
      unfold collapseStep
      by_cases hc : isWs c = true
      · rw [if_pos hc, if_pos hc]
        cases hct : collapse (d :: t') with
        | nil => exact absurd hct hcn
        | cons a r =>
          simp only [List.cons_append, List.head?_cons]
          by_cases ha : a = ' ' <;> simp [ha]
      · rw [if_neg hc, if_neg hc]; rfl

/-! #### Shape of the short-path output -/

theorem shortPath_decomp (normalized : List Char) (sentences : List (List Char)) :
    ∃ A C, shortPath normalized sentences 5 =
      A ++ ("- Summary: ".toList ++ truncate normalized 160) ++ C ∧
      A.head? = some '-' ∧
      (C = [] ∨ C = '\n' :: "- Context: brief update".toList) := by
  unfold shortPath
  by_cases hk : (topKeywords normalized 6).isEmpty = true <;>
    by_cases hf : ((extractNumbersDates normalized).take 6).isEmpty = true <;>
      simp only [hk, hf, if_true, if_false]
  · -- no keywords, no facts: Topic and Summary bullets plus one Context pad
    refine ⟨"- Topic: ".toList ++ truncate (titleFromText sentences normalized) 90 ++ ['\n'],
      '\n' :: "- Context: brief update".toList, ?_, by rfl, Or.inr rfl⟩
    show List.intercalate ['\n'] _ = _
    simp [List.filter, List.intercalate, List.intersperse, List.flatten]
  · -- no keywords, facts present
    refine ⟨"- Topic: ".toList ++ truncate (titleFromText sentences normalized) 90 ++ '\n' ::
      ("- Facts: ".toList ++
        (String.intercalate ", " ((extractNumbersDates normalized).take 6)).toList ++ ['\n']),
      [], ?_, by rfl, Or.inl rfl⟩
    show List.intercalate ['\n'] _ = _
    simp [List.filter, List.intercalate, List.intersperse, List.flatten]
  · -- keywords present, no facts
    refine ⟨"- Topic: ".toList ++ truncate (titleFromText sentences normalized) 90 ++ '\n' ::
      ("- Key terms: ".toList ++
        (String.intercalate ", " ((topKeywords normalized 6).take 5)).toList ++ ['\n']),
      [], ?_, by rfl, Or.inl rfl⟩
    show List.intercalate ['\n'] _ = _
    simp [List.filter, List.intercalate, List.intersperse, List.flatten]
  · -- keywords and facts present
    refine ⟨"- Topic: ".toList ++ truncate (titleFromText sentences normalized) 90 ++ '\n' ::
      ("- Key terms: ".toList ++
        (String.intercalate ", " ((topKeywords normalized 6).take 5)).toList ++ '\n' ::
        ("- Facts: ".toList ++
          (String.intercalate ", " ((extractNumbersDates normalized).take 6)).toList ++ ['\n'])),
      [], ?_, by rfl, Or.inl rfl⟩
    show List.intercalate ['\n'] _ = _
    simp [List.filter, List.intercalate, List.intersperse, List.flatten]



theorem canonical_shortPath_long (normalized : List Char) (sentences : List (List Char))
    (hne : normalized ≠ [])
    (hhead : ∀ c, normalized.head? = some c → isWs c = false)
    (hlast : ∀ c, normalized.getLast? = some c → isWs c = false)
    (hgood : goodWs normalized)
    (hlen : normalized.length ≤ 160) :
    normalized.length + 11 ≤ (canonical (shortPath normalized sentences 5)).length := by
  obtain ⟨A, C, hdec, hheadA, hC⟩ := shortPath_decomp normalized sentences
  have htr : truncate normalized 160 = normalized := by
    unfold truncate
    rw [if_pos hlen]
  rw [htr] at hdec
  obtain ⟨A', hA⟩ : ∃ A', A = '-' :: A' := by
    cases A with
    | nil => simp at hheadA
    | cons a A'' =>
      simp at hheadA
      exact ⟨A'', by rw [hheadA]⟩
  obtain ⟨hd, tl, hn⟩ : ∃ hd tl, normalized = hd :: tl := by
    cases normalized with
    | nil => exact absurd rfl hne
    | cons hd tl => exact ⟨hd, tl, rfl⟩
  have hheadc : isWs hd = false := hhead hd (by rw [hn]; rfl)
  have hdne : hd ≠ ' ' := by
    intro he
    rw [he] at hheadc
    simp [isWs, wsCodes] at hheadc
  -- reassociate the decomposition
  have hdec2 : shortPath normalized sentences 5 =
      A ++ ("- Summary: ".toList ++ (normalized ++ C)) := by
    rw [hdec]
    simp [List.append_assoc]
  -- collapse computations
  have hCcol : collapse C = [] ∨
      collapse C = ' ' :: "- Context: brief update".toList := by
    rcases hC with h | h
    · left; rw [h]; rfl
    · right; rw [h]; decide
  have h1 : collapse (normalized ++ C) = normalized ++ collapse C := by
    show ((normalized ++ C).foldr collapseStep []) = _
    rw [List.foldr_append]
    rw [foldr_collapseStep_append_of_last normalized _ hne hlast]
    rw [goodWs_collapse_eq _ hgood]
    rfl
  have hlit : collapse ("- Summary: ".toList) = "- Summary: ".toList := by decide
  have h2 : collapse ("- Summary: ".toList ++ (normalized ++ C)) =
      "- Summary: ".toList ++ (normalized ++ collapse C) := by
    rw [collapse_append _ _ ?_]
    · rw [h1, hlit]
    · rw [h1, hn]
      simp [hdne]
  have h3 : collapse (A ++ ("- Summary: ".toList ++ (normalized ++ C))) =
      collapse A ++ ("- Summary: ".toList ++ (normalized ++ collapse C)) := by
    rw [collapse_append _ _ ?_]
    · rw [h2]
    · rw [h2]
      simp
  have h4 : collapse A = '-' :: collapse A' := by
    rw [hA]
    exact collapse_cons_nonWs '-' A' (by decide)
  -- trimming is a no-op on the collapsed output
  have h5 : (collapse A ++ ("- Summary: ".toList ++ (normalized ++ collapse C))).dropWhile isWs =
      collapse A ++ ("- Summary: ".toList ++ (normalized ++ collapse C)) := by
    refine dropWhile_eq_self_of_head _ _ ?_
    intro c hc
    rw [h4] at hc
    simp at hc
    rw [← hc]
    decide
  have h6 : trimRight (collapse A ++ ("- Summary: ".toList ++ (normalized ++ collapse C))) =
      collapse A ++ ("- Summary: ".toList ++ (normalized ++ collapse C)) := by
    refine trimRight_eq_self _ ?_
    intro c hc
    rcases hCcol with hcc | hcc
    · rw [hcc, List.append_nil] at hc
      rw [List.getLast?_append_of_ne_nil _ (by simp [hn]),
        List.getLast?_append_of_ne_nil _ (by simp [hn])] at hc
      exact hlast c hc
    · rw [hcc] at hc
      rw [List.getLast?_append_of_ne_nil _ (by simp),
        List.getLast?_append_of_ne_nil _ (by simp),
        List.getLast?_append_of_ne_nil _ (by simp)] at hc
      have : c = 'e' := by
        have hfin : (' ' :: "- Context: brief update".toList).getLast? = some 'e' := by decide
        rw [hfin] at hc
        exact (Option.some.injEq _ _ ▸ hc).symm
      rw [this]
      decide
  have hcanon : canonical (shortPath normalized sentences 5) =
      (collapse A ++ ("- Summary: ".toList ++ (normalized ++ collapse C))).map jsToLower := by
    rw [hdec2]
    unfold canonical normalizeWs trim
    rw [h3, h5, h6]
  rw [hcanon]
  simp only [List.length_map, List.length_append]
  have : ("- Summary: ".toList).length = 11 := by decide
  omega



theorem insertAsc_length (x : Nat) : ∀ (l : List Nat), (insertAsc x l).length = l.length + 1 := by
  intro l
  induction l with
  | nil => rfl
  | cons y ys ih =>
    show (if x ≤ y then x :: y :: ys else y :: insertAsc x ys).length = _
    split
    · rfl
    · simp [ih]

theorem sortAsc_length (l : List Nat) : (sortAsc l).length = l.length := by
  induction l with
  | nil => rfl
  | cons x xs ih =>
    show (insertAsc x (sortAsc xs)).length = _
    rw [insertAsc_length, ih]
    rfl

theorem insertDescBy_length {α : Type} (key : α → Nat) (x : α) :
    ∀ (l : List α), (insertDescBy key x l).length = l.length + 1 := by
  intro l
  induction l with
  | nil => rfl
  | cons y ys ih =>
    show (if key x < key y then y :: insertDescBy key x ys else x :: y :: ys).length = _
    split
    · simp [ih]
    · rfl

theorem sortDescBy_length {α : Type} (key : α → Nat) (l : List α) :
    (sortDescBy key l).length = l.length := by
  induction l with
  | nil => rfl
  | cons x xs ih =>
    show (insertDescBy key x (sortDescBy key xs)).length = _
    rw [insertDescBy_length, ih]
    rfl

theorem truncate_length_le (s : List Char) (mx : Nat) : (truncate s mx).length ≤ mx + 1 := by
  unfold truncate
  by_cases h : s.length ≤ mx
  · rw [if_pos h]; omega
  · rw [if_neg h]
    simp only []
    have hgen : ∀ (t : List Char), t.length ≤ mx → (trim t ++ ['…']).length ≤ mx + 1 := by
      intro t ht
      rw [List.length_append]
      have := trim_length_le t
      simp only [List.length_cons, List.length_nil]
      omega
    have hcut : (s.take mx).length ≤ mx := by
      rw [List.length_take]; exact min_le_left _ _
    split
    · refine hgen _ ?_
      rw [List.length_take]
      exact le_trans (min_le_right _ _) hcut
    · exact hgen _ hcut

theorem intercalate_nl_ne_nil (bs : List (List Char)) (hbs : bs ≠ [])
    (hel : ∀ b ∈ bs, b ≠ []) : List.intercalate ['\n'] bs ≠ [] := by
  cases bs with
  | nil => exact absurd rfl hbs
  | cons b bs' =>
    cases bs' with
    | nil =>
      simpa [List.intercalate, List.intersperse, List.flatten] using hel b (by simp)
    | cons b2 bs'' =>
      simp [List.intercalate, List.intersperse, List.flatten]

theorem standardPath_out (normalized : List Char) (sentences : List (List Char))
    (hnorm : normalizeWs normalized = normalized)
    (hlen : 280 ≤ normalized.length)
    (hsent : 1 ≤ sentences.length) :
    canonical (standardPath normalized sentences 5) ≠ canonical normalized ∧
    standardPath normalized sentences 5 ≠ [] := by
  have hnlen : (canonical normalized).length = normalized.length := by
    unfold canonical
    rw [hnorm, List.length_map]
  unfold standardPath
  simp only []
  split
  next hecho =>
    constructor
    · intro hcon
      have h1 := canonical_length_le (List.intercalate ['\n']
        ["- Summary:".toList, "- ".toList ++ truncate normalized 200])
      rw [hcon, hnlen] at h1
      have h2 : (List.intercalate ['\n']
          ["- Summary:".toList, "- ".toList ++ truncate normalized 200]).length ≤ 214 := by
        have := truncate_length_le normalized 200
        simp [List.intercalate, List.intersperse, List.flatten]
        omega
      omega
    · simp [List.intercalate, List.intersperse, List.flatten]
  next hecho =>
    refine ⟨hecho, ?_⟩
    refine intercalate_nl_ne_nil _ ?_ ?_
    · intro hnil
      have hL := congrArg List.length hnil
      rw [List.length_map, sortAsc_length, List.length_map, List.length_take,
        sortDescBy_length, List.length_map, List.enum_length] at hL
      simp only [List.length_nil] at hL
      rcases Nat.min_eq_zero_iff.mp hL with h0 | h0
      · rcases Nat.min_eq_zero_iff.mp h0 with h1 | h1
        · omega
        · obtain ⟨h2, _⟩ := Nat.max_eq_zero_iff.mp h1
          omega
      · omega
    · intro b hb
      simp only [List.mem_map] at hb
      obtain ⟨i, _, hb⟩ := hb
      rw [← hb]
      simp


theorem shortPath_ne_nil (normalized : List Char) (sentences : List (List Char)) :
    shortPath normalized sentences 5 ≠ [] := by
  obtain ⟨A, C, hdec, hheadA, _⟩ := shortPath_decomp normalized sentences
  rw [hdec]
  cases A with
  | nil => simp at hheadA
  | cons a A' => simp

theorem extractiveSummary_short_branch (text : String)
    (hne : normalizeWs text.toList ≠ [])
    (hshort : (normalizeWs text.toList).length < 280 ∨
      (sentencesOf (normalizeWs text.toList)).length ≤ 2) :
    extractiveSummary text 5 =
      String.mk (shortPath (normalizeWs text.toList)
        (sentencesOf (normalizeWs text.toList)) 5) := by
  unfold extractiveSummary
  simp only []
  rw [if_neg hne, if_pos ?hc]
  case hc =>
    simp only [Bool.or_eq_true, decide_eq_true_eq]
    exact hshort

theorem extractiveSummary_standard_branch (text : String)
    (hne : normalizeWs text.toList ≠ [])
    (hstd : ¬ ((normalizeWs text.toList).length < 280 ∨
      (sentencesOf (normalizeWs text.toList)).length ≤ 2)) :
    extractiveSummary text 5 =
      String.mk (standardPath (normalizeWs text.toList)
        (sentencesOf (normalizeWs text.toList)) 5) := by
  unfold extractiveSummary
  simp only []
  push_neg at hstd
  rw [if_neg hne, if_neg ?hc]
  case hc =>
    simp only [Bool.or_eq_true, decide_eq_true_eq]
    intro hcon
    rcases hcon with h | h
    · exact absurd h (not_lt.2 hstd.1)
    · exact absurd h (not_le.2 hstd.2)

theorem string_mk_ne_empty (l : List Char) (h : l ≠ []) : String.mk l ≠ "" := by
  intro hcon
  exact h (congrArg String.toList hcon)

/-- A 222-character input: a fixed point of the short-input branch of
`extractiveSummary`. -/
def fixedInput : String :=
  "- Topic: Topic\n- Key terms: topic, key, terms, cat, dog\n- Summary: - Topic: Topic - Key terms: topic, key, terms, cat, dog - Summary: - Topic: Topic - Key terms: topic, key, terms, cat, dog - Summary: - Topic: Topic - Key…"

set_option maxHeartbeats 2000000 in
/-- C5 counterexample: a non-empty input (normalized length 222, so on the
short-input path) whose summary is the input itself, verbatim — the
case/whitespace-normalized output equals the normalized input. -/
theorem claim_C5_counterexample :
    (normalizeWs fixedInput.toList ≠ [] ∧
      (normalizeWs fixedInput.toList).length = 222 ∧
      (normalizeWs fixedInput.toList).length < 280) ∧
    extractiveSummary fixedInput 5 = fixedInput ∧
    canonical (extractiveSummary fixedInput 5).toList = canonical fixedInput.toList := by
  have hecho : extractiveSummary fixedInput 5 = fixedInput := by decide
  exact ⟨⟨by decide, by decide, by decide⟩, hecho, by rw [hecho]⟩

attribute [irreducible] standardPath shortPath extractiveSummary canonical

/-- C5 (amended): at the call sites' `maxBullets = 5`, the extractive
summarizer never returns an empty result; on the standard
sentence-selection path its normalized output never equals the normalized
input; on the short-input path the same holds whenever the normalized input
has at most 160 characters — but not in general: a short-path input of
normalized length 222 is echoed verbatim (see the counterexample). -/
theorem claim_C5_summarizer_anti_echo (text : String) :
    extractiveSummary text 5 ≠ "" ∧
    (¬ ((normalizeWs text.toList).length < 280 ∨
        (sentencesOf (normalizeWs text.toList)).length ≤ 2) →
      canonical (extractiveSummary text 5).toList ≠ canonical text.toList) ∧
    (normalizeWs text.toList ≠ [] → (normalizeWs text.toList).length ≤ 160 →
      canonical (extractiveSummary text 5).toList ≠ canonical text.toList) := by
  refine ⟨?_, ?_, ?_⟩
  · -- the output is never empty
    by_cases hne : normalizeWs text.toList = []
    · unfold extractiveSummary
      simp only []
      rw [if_pos hne]
      decide
    · by_cases hshort : (normalizeWs text.toList).length < 280 ∨
        (sentencesOf (normalizeWs text.toList)).length ≤ 2
      · rw [extractiveSummary_short_branch text hne hshort]
        exact string_mk_ne_empty _ (shortPath_ne_nil _ _)
      · rw [extractiveSummary_standard_branch text hne hshort]
        push_neg at hshort
        refine string_mk_ne_empty _ ?_
        exact (standardPath_out _ _ (normalizeWs_idem _) hshort.1
          (le_trans (by norm_num) hshort.2.le)).2
  · -- standard path: never echoes
    intro hstd
    rw [not_or, not_lt, not_le] at hstd
    obtain ⟨h280, hsl⟩ := hstd
    have hne : normalizeWs text.toList ≠ [] := by
      intro hcon
      rw [hcon] at h280
      simp at h280
    rw [extractiveSummary_standard_branch text hne
      (not_or.mpr ⟨not_lt.2 h280, not_le.2 hsl⟩)]
    have hout := (standardPath_out (normalizeWs text.toList)
      (sentencesOf (normalizeWs text.toList)) (normalizeWs_idem _)
      h280 (le_trans (by norm_num) hsl.le)).1
    intro hcon
    refine hout ?_
    have hcn : canonical (normalizeWs text.toList) = canonical text.toList :=
      canonical_normalizeWs text.toList
    rw [← hcn] at hcon
    have hmk : (String.mk (standardPath (normalizeWs text.toList)
        (sentencesOf (normalizeWs text.toList)) 5)).toList =
      standardPath (normalizeWs text.toList)
        (sentencesOf (normalizeWs text.toList)) 5 := rfl
    rw [hmk] at hcon
    exact hcon
  · -- short path with normalized input of at most 160 characters
    intro hne h160
    have hshort : (normalizeWs text.toList).length < 280 ∨
        (sentencesOf (normalizeWs text.toList)).length ≤ 2 := Or.inl (by omega)
    rw [extractiveSummary_short_branch text hne hshort]
    have hlong := canonical_shortPath_long (normalizeWs text.toList)
      (sentencesOf (normalizeWs text.toList)) hne
      (normalizeWs_head text.toList) (normalizeWs_getLast text.toList)
      (normalizeWs_goodWs text.toList) h160
    intro hcon
    have hlen2 : (canonical text.toList).length = (normalizeWs text.toList).length := by
      unfold canonical
      rw [List.length_map]
    have hmk : (String.mk (shortPath (normalizeWs text.toList)
        (sentencesOf (normalizeWs text.toList)) 5)).toList =
      shortPath (normalizeWs text.toList)
        (sentencesOf (normalizeWs text.toList)) 5 := rfl
    rw [hmk] at hcon
    have := congrArg List.length hcon
    omega

/-- Witness for C5 (amended): a concrete short input is summarized into a
structured bullet list different from the input. -/
theorem claim_C5_summarizer_anti_echo_witness :
    (normalizeWs ("Hello world." : String).toList ≠ [] ∧
      (normalizeWs ("Hello world." : String).toList).length ≤ 160) ∧
    canonical (extractiveSummary "Hello world." 5).toList ≠
      canonical ("Hello world." : String).toList :=
  ⟨⟨by decide, by decide⟩,
    (claim_C5_summarizer_anti_echo "Hello world.").2.2 (by decide) (by decide)⟩

end Summarize

end NewsBias
